import Mathlib

/-!
Verification of the document-extraction engine of the logseq-to-hugo
converter (Go sources: `metadata.go`, `types.go`, `writer.go`).

The goldmark AST is shallowly embedded as a tree of nodes.  Each node
carries its kind, a heading level (meaningful only for headings), the
string returned by `node.Text(source)` (the flattened raw-text span of
the subtree, resolved against the original source bytes), the string
obtained by concatenating the values of `node.Lines()` (the raw source
lines spanned by the node), and the ordered children.  Node identity
(the Go code keys its processed-set by node pointers) is modelled by
tree positions: the path of child indices from the root, as suggested
by the arena/index scheme of the design notes.
-/

set_option linter.unusedVariables false

inductive NodeKind where
  | list
  | listItem
  | paragraph
  | heading
  | other
deriving DecidableEq

mutual
inductive Node where
  | mk (kind : NodeKind) (level : Nat) (text : String) (lineText : String)
       (children : NodeList)
inductive NodeList where
  | nil
  | cons (head : Node) (tail : NodeList)
end

def Node.kind : Node → NodeKind
  | .mk k _ _ _ _ => k

def Node.level : Node → Nat
  | .mk _ l _ _ _ => l

def Node.text : Node → String
  | .mk _ _ t _ _ => t

def Node.lineText : Node → String
  | .mk _ _ _ s _ => s

def Node.children : Node → NodeList
  | .mk _ _ _ _ cs => cs

def Node.firstChild? : Node → Option Node
  | .mk _ _ _ _ .nil => none
  | .mk _ _ _ _ (.cons c _) => some c

def NodeList.toList : NodeList → List Node
  | .nil => []
  | .cons c cs => c :: NodeList.toList cs

def NodeList.length : NodeList → Nat
  | .nil => 0
  | .cons _ cs => NodeList.length cs + 1

def NodeList.app : NodeList → NodeList → NodeList
  | .nil, bs => bs
  | .cons a as, bs => .cons a (NodeList.app as bs)

def NodeList.get? : NodeList → Nat → Option Node
  | .nil, _ => none
  | .cons c _, 0 => some c
  | .cons _ cs, n + 1 => NodeList.get? cs n

-- Node lookup by a path of child indices (root has path `[]`).
mutual
def nodeAt : Node → List Nat → Option Node
  | n, [] => some n
  | .mk _ _ _ _ cs, i :: is => nodeAtL cs i is
def nodeAtL : NodeList → Nat → List Nat → Option Node
  | .nil, _, _ => none
  | .cons c _, 0, is => nodeAt c is
  | .cons _ cs, i + 1, is => nodeAtL cs i is
end

/-! ## String primitives

The Go code relies on `strings.Contains`, `strings.Split(s, "\n")`,
`strings.ReplaceAll(s, "\n", " ")`, `strings.TrimSpace` and two small
regular expressions.  They are embedded as structurally recursive
functions on character lists so that everything reduces in the kernel.
-/

/-- Character membership of Go's `unicode.IsSpace` (the set trimmed by
`strings.TrimSpace`). -/
def isGoSpace (c : Char) : Bool :=
  c = ' ' || c = '\t' || c = '\n' || c = '\x0b' || c = '\x0c' || c = '\r' ||
  c = '\u0085' || c = ' ' || c = ' ' ||
  (' ' ≤ c && c ≤ ' ') ||
  c = ' ' || c = ' ' || c = ' ' || c = ' ' || c = '　'

/-- The character class `\s` of Go's regexp package (RE2, no Unicode flag). -/
def isRESpace (c : Char) : Bool :=
  c = ' ' || c = '\t' || c = '\n' || c = '\x0c' || c = '\r'

/-- The character class `\w` of Go's regexp package: `[0-9A-Za-z_]`. -/
def isWordChar (c : Char) : Bool :=
  c.isAlpha || c.isDigit || c = '_'

def trimGoL (l : List Char) : List Char :=
  ((l.dropWhile isGoSpace).reverse.dropWhile isGoSpace).reverse

/-- `strings.TrimSpace`. -/
def trimGo (s : String) : String :=
  ⟨trimGoL s.data⟩

def startsWithL : List Char → List Char → Bool
  | [], _ => true
  | _ :: _, [] => false
  | p :: ps, c :: cs => p = c && startsWithL ps cs

def containsL (pat : List Char) : List Char → Bool
  | [] => startsWithL pat []
  | c :: cs => startsWithL pat (c :: cs) || containsL pat cs

/-- `strings.Contains`. -/
def strContains (s pat : String) : Bool :=
  containsL pat.data s.data

def splitLinesL : List Char → List (List Char)
  | [] => [[]]
  | c :: cs =>
    if c = '\n' then [] :: splitLinesL cs
    else
      match splitLinesL cs with
      | [] => [[c]]
      | l :: ls => (c :: l) :: ls

/-- `strings.Split(s, "\n")`. -/
def splitLines (s : String) : List String :=
  (splitLinesL s.data).map (fun l => ⟨l⟩)

def replaceNLL : List Char → List Char
  | [] => []
  | c :: cs => (if c = '\n' then ' ' else c) :: replaceNLL cs

/-- `strings.ReplaceAll(s, "\n", " ")`. -/
def replaceNL (s : String) : String :=
  ⟨replaceNLL s.data⟩

/-! ## Metadata parser (`metadata.go`)

`NewMetadataParser` compiles the pattern `(\w+)::\s*(.*)` and `Parse`
applies `FindStringSubmatch` to each line.  For this pattern, Go's
leftmost-first match is: scan for the first `::` immediately preceded by
a word character; the key is the maximal word-character run ending just
before that `::`, and the value is the rest of the line after the `::`
and the following run of `\s` characters.  `scanKV` performs exactly
this scan, carrying the reversed word run that precedes the current
position. -/

def scanKV (rw : List Char) : List Char → Option (List Char × List Char)
  | [] => none
  | ':' :: ':' :: rest =>
    if rw.isEmpty then scanKV [] rest else some (rw.reverse, rest)
  | ':' :: cs => scanKV [] cs
  | c :: cs => if isWordChar c then scanKV (c :: rw) cs else scanKV [] cs

/-- Result of `regex.FindStringSubmatch` on one line, with the
`strings.TrimSpace` that `Parse` applies to the captured value. -/
def findKV (line : String) : Option (String × String) :=
  match scanKV [] line.data with
  | none => none
  | some (k, rest) => some (⟨k⟩, trimGo ⟨rest.dropWhile isRESpace⟩)

structure BlogMeta where
  Date : String := ""
  Title : String := ""
  Author : String := ""
  Header : String := ""
  Summary : String := ""
  Status : String := ""
deriving DecidableEq

structure BlogPost where
  Meta : BlogMeta
  Content : List String
deriving DecidableEq

/-- The `\((.*?)\)` helper of `extractPath`: characters strictly before
the first `)`, or `none` if no `)` occurs. -/
def upToParen : List Char → Option (List Char)
  | [] => none
  | c :: cs => if c = ')' then some [] else (upToParen cs).map (c :: ·)

/-- Leftmost match of `\((.*?)\)`: the first `(` that is followed by a
later `)`, capturing up to the next `)`. -/
def extractPathL : List Char → Option (List Char)
  | [] => none
  | c :: cs =>
    if c = '(' then
      match upToParen cs with
      | some b => some b
      | none => extractPathL cs
    else extractPathL cs

/-- `extractPath` of `metadata.go`. -/
def extractPath (raw : String) : String :=
  match extractPathL raw.data with
  | some b => ⟨b⟩
  | none => raw

/-- `(*MetadataParser).setField` of `metadata.go`. -/
def setField (meta : BlogMeta) (key value : String) : BlogMeta :=
  if key = "date" then { meta with Date := value }
  else if key = "title" then { meta with Title := value }
  else if key = "author" then { meta with Author := value }
  else if key = "header" then { meta with Header := extractPath value }
  else if key = "status" then { meta with Status := value }
  else meta

/-- `(*MetadataParser).Parse` of `metadata.go`. -/
def MetadataParser.Parse (lines : List String) : BlogMeta :=
  lines.foldl
    (fun meta line =>
      match findKV line with
      | some (k, v) => setField meta k v
      | none => meta)
    {}

/-! ## Text reconstructors

`extractText` is the reconstructor of `writer.go`; `extractNodeText` is
the reconstructor of `types.go`.  Both iterate the direct children of a
content item. -/

def hashes : Nat → String
  | 0 => ""
  | n + 1 => "#" ++ hashes n

-- The nested-list branch of `extractText`: one `* ` bullet per item,
-- using `listItem.Text(source)`.
def bulletItems : NodeList → String
  | .nil => ""
  | .cons it rest => "* " ++ it.text ++ "\n" ++ bulletItems rest

def extractTextAux : NodeList → String
  | .nil => ""
  | .cons c rest =>
    (if c.kind = .list then "\n" ++ bulletItems c.children
     else if c.kind = .heading then hashes c.level ++ " " ++ c.text ++ "\n"
     else c.lineText)
    ++ extractTextAux rest

/-- `extractText` of `writer.go`: headings get `#` markers and their
flattened text, nested lists are flattened to one level of `* ` bullets,
anything else contributes its raw source lines; the result is trimmed. -/
def extractText (n : Node) : String :=
  trimGo (extractTextAux n.children)

-- The nested-list branch of `extractNodeText`: one `* ` bullet per
-- item, using the concatenated `Lines()` of the item's children.
def itemLineText : NodeList → String
  | .nil => ""
  | .cons ic rest => ic.lineText ++ itemLineText rest

def starItems : NodeList → String
  | .nil => ""
  | .cons it rest => "* " ++ itemLineText it.children ++ "\n" ++ starItems rest

def extractNodeTextAux : NodeList → String
  | .nil => ""
  | .cons c rest =>
    (if c.kind = .heading then hashes c.level ++ " " else "")
    ++ c.lineText
    ++ (if c.kind = .list then "\n" ++ starItems c.children else "")
    ++ extractNodeTextAux rest

/-- `extractNodeText` of `types.go` (untrimmed variant of the
reconstructor). -/
def extractNodeText (n : Node) : String :=
  extractNodeTextAux n.children

/-! ## Nesting resolution

`findDeepestList` (`writer.go`) and `findDeepestNestedList` (`types.go`)
have the same semantics: scan the children in order; at the first child
of kind List, recurse into it (ignoring the remaining children);
otherwise return the node itself. -/

mutual
def findDeepestList : Node → Node
  | .mk k l t s cs =>
    match findDeepestListIn cs with
    | some d => d
    | none => .mk k l t s cs
def findDeepestListIn : NodeList → Option Node
  | .nil => none
  | .cons c cs =>
    if c.kind = .list then some (findDeepestList c) else findDeepestListIn cs
end

/-- Resolution step of `extractListPost` (`writer.go`): Go compares the
result of `findDeepestList(firstItem)` with `firstItem` by pointer; the
result differs from `firstItem` exactly when a List child was found
somewhere down the first-list-child chain. -/
def resolveListW (listNode firstItem : Node) : Node :=
  match findDeepestListIn firstItem.children with
  | some d => d
  | none => listNode

/-- Resolution step of `extractFromList` (`types.go`), which also guards
against a missing first item. -/
def resolveListT (listNode : Node) : Node :=
  match listNode.firstChild? with
  | none => listNode
  | some fi =>
    match findDeepestListIn fi.children with
    | some d => d
    | none => listNode

/-! ## Per-list extraction -/

-- Content loop of `extractListPost` (`writer.go`): items after the
-- first each yield `extractText`, and empty reconstructions are skipped
-- (`if content != ""`).
def contentItemsW : NodeList → List String
  | .nil => []
  | .cons it rest =>
    (let c := extractText it
     if c = "" then [] else [c]) ++ contentItemsW rest

-- Content loop of `extractFromList` (`types.go`): items after the first
-- each yield `extractNodeText`, appended unconditionally.
def contentItemsT : NodeList → List String
  | .nil => []
  | .cons it rest => extractNodeText it :: contentItemsT rest

/-- `extractListPost` of `writer.go`. -/
def extractListPost (listNode firstItem : Node) : BlogPost :=
  let resolved := resolveListW listNode firstItem
  let (metadataLines, contentBlocks) :=
    match resolved.children with
    | .nil => ([], [])
    | .cons it rest => (splitLines it.text, contentItemsW rest)
  let meta := MetadataParser.Parse metadataLines
  match contentBlocks with
  | [] => ⟨meta, contentBlocks⟩
  | b :: _ =>
    if meta.Summary = "" then ⟨{ meta with Summary := replaceNL b }, contentBlocks⟩
    else ⟨meta, contentBlocks⟩

/-- `(*NestedListExtractor).extractFromList` of `types.go`. -/
def extractFromList (listNode : Node) : BlogPost :=
  let resolved := resolveListT listNode
  let (metadataLines, contentBlocks) :=
    match resolved.children with
    | .nil => ([], [])
    | .cons it rest => (splitLines it.text, contentItemsT rest)
  let meta := MetadataParser.Parse metadataLines
  match contentBlocks with
  | [] => ⟨meta, contentBlocks⟩
  | b :: _ => ⟨{ meta with Summary := replaceNL b }, contentBlocks⟩

/-- The non-metadata sibling items of a resolved list: everything after
the first child. -/
def restItems (n : Node) : NodeList :=
  match n.children with
  | .nil => .nil
  | .cons _ rest => rest

/-- Wrapper matching the call site in `extractBlogPosts` (`writer.go`),
where `extractListPost` receives the list and its first item; the walk
only reaches this with a present first item. -/
def extractListPostF (n : Node) : BlogPost :=
  match n.firstChild? with
  | some fi => extractListPost n fi
  | none => ⟨{}, []⟩

/-! ## The nested-outline walk

Both `extractBlogPosts` (`writer.go`) and
`(*NestedListExtractor).Extract` (`types.go`) perform the same `ast.Walk`:
on entering a List node that is not in the processed set and whose first
item's text contains `type:: blog`, extract a post, then mark every List
node of the subtree (itself included) as processed, and continue.  The
walk is parameterized by the per-list extraction function `f`, which the
two files instantiate differently. -/

/-- Marker detection: the first item exists and its `Text(source)`
contains the literal substring `type:: blog`. -/
def hasMarker (n : Node) : Bool :=
  match n.firstChild? with
  | none => false
  | some fi => strContains fi.text "type:: blog"

-- Paths of all List-kind nodes of the subtree rooted at path `q`
-- (the inner marking walk).
mutual
def listPaths (q : List Nat) : Node → List (List Nat)
  | .mk k _ _ _ cs => (if k = .list then [q] else []) ++ listPathsL q 0 cs
def listPathsL (q : List Nat) (i : Nat) : NodeList → List (List Nat)
  | .nil => []
  | .cons c cs => listPaths (q ++ [i]) c ++ listPathsL q (i + 1) cs
end

section Walk

variable (f : Node → BlogPost)

/-- The body of the walk callback on entering node `n` at path `q`: on
an unprocessed List whose first item carries the marker, extract a post
and mark every List of the subtree as processed. -/
def walkStep (q : List Nat) (n : Node)
    (st : List (List Nat) × List BlogPost) : List (List Nat) × List BlogPost :=
  if n.kind = .list ∧ q ∉ st.1 ∧ hasMarker n = true then
    (st.1 ++ listPaths q n, st.2 ++ [f n])
  else st

/-- Traversal of a child list: each child is visited (`walkStep`) and
then its own children are traversed, threading the state left to
right — the `ast.Walk` order. -/
def walkChildren (q : List Nat) (i : Nat) :
    NodeList → List (List Nat) × List BlogPost → List (List Nat) × List BlogPost
  | .nil, st => st
  | .cons (.mk k l t s cs) rest, st =>
    walkChildren q (i + 1) rest
      (walkChildren (q ++ [i]) 0 cs (walkStep f (q ++ [i]) (.mk k l t s cs) st))

/-- Traversal of the subtree rooted at `n` (visit `n`, then its
children). -/
def walkNode (q : List Nat) (n : Node)
    (st : List (List Nat) × List BlogPost) : List (List Nat) × List BlogPost :=
  match n with
  | .mk k l t s cs => walkChildren f q 0 cs (walkStep f q (.mk k l t s cs) st)

/-- The ordered posts produced by the nested-outline walk. -/
def nestedWalkPosts (doc : Node) : List BlogPost :=
  (walkNode f [] doc ([], [])).2

end Walk

/-- `(*NestedListExtractor).Extract` of `types.go`. -/
def NestedListExtractor.Extract (doc : Node) : List BlogPost :=
  nestedWalkPosts extractFromList doc

/-! ## Declarative characterization (modelled on the spec)

Following the specification's description of the nested-outline
strategy, the extracted lists are the marked List nodes that have no
marked proper ancestor: pre-order traversal stops descending at the
first marked list.  `markedOutermost` lists those nodes in document
order; `markedOutermostP` also records their paths. -/

mutual
def markedOutermost : Node → List Node
  | .mk k l t s cs =>
    if k = .list ∧ hasMarker (.mk k l t s cs) = true then [.mk k l t s cs]
    else markedOutermostL cs
def markedOutermostL : NodeList → List Node
  | .nil => []
  | .cons c cs => markedOutermost c ++ markedOutermostL cs
end

mutual
def markedOutermostP (q : List Nat) : Node → List (List Nat × Node)
  | .mk k l t s cs =>
    if k = .list ∧ hasMarker (.mk k l t s cs) = true then [(q, .mk k l t s cs)]
    else markedOutermostPL q 0 cs
def markedOutermostPL (q : List Nat) (i : Nat) : NodeList → List (List Nat × Node)
  | .nil => []
  | .cons c cs => markedOutermostP (q ++ [i]) c ++ markedOutermostPL q (i + 1) cs
end

/-- The list paths marked as processed for one extracted pair. -/
def pathsOf (pm : List Nat × Node) : List (List Nat) :=
  listPaths pm.1 pm.2

/-- Matched-list test at a path, used to phrase "no marked proper
ancestor" decidably. -/
def matchedAtB (doc : Node) (p : List Nat) : Bool :=
  match nodeAt doc p with
  | some a => decide (a.kind = .list) && hasMarker a
  | none => false

/-! ## Top-level strategy (`extractTopLevelPost` of `writer.go`) -/

structure TLState where
  metadataLines : List String
  contentBlocks : List String
  foundBlogMarker : Bool
deriving DecidableEq

-- One content block per item of a top-level list.
def tlItems : NodeList → List String
  | .nil => []
  | .cons it rest => extractText it :: tlItems rest

/-- The callback body of the `ast.Walk` in `extractTopLevelPost`,
executed on entering node `n` whose parent has kind `pk` (the root's
absent parent is represented by `.other`). -/
def tlVisit (pk : NodeKind) (n : Node) (st : TLState) : TLState :=
  let st1 :=
    if n.kind = .paragraph ∧ strContains n.text "::" = true then
      (splitLines n.text).foldl
        (fun s line =>
          if strContains line "::" = true then
            { s with
              metadataLines := s.metadataLines ++ [line],
              foundBlogMarker :=
                s.foundBlogMarker || strContains line "type:: blog" }
          else s)
        st
    else st
  if st1.foundBlogMarker = true ∧ n.kind = .list ∧ pk ≠ .listItem then
    { st1 with contentBlocks := st1.contentBlocks ++ tlItems n.children }
  else st1

/-- Top-level walk over a child list whose parent has kind `pk`: visit
each child, then its own children (whose parent kind is the child's
kind), threading the state in `ast.Walk` order. -/
def tlWalkChildren (pk : NodeKind) : NodeList → TLState → TLState
  | .nil, st => st
  | .cons (.mk k l t s cs) rest, st =>
    tlWalkChildren pk rest (tlWalkChildren k cs (tlVisit pk (.mk k l t s cs) st))

/-- Top-level walk of the subtree rooted at `n`, whose parent has kind
`pk`. -/
def tlWalk (pk : NodeKind) (n : Node) (st : TLState) : TLState :=
  match n with
  | .mk k l t s cs => tlWalkChildren k cs (tlVisit pk (.mk k l t s cs) st)

/-- `extractTopLevelPost` of `writer.go`. -/
def extractTopLevelPost (doc : Node) : Option BlogPost :=
  let st := tlWalk .other doc ⟨[], [], false⟩
  if st.foundBlogMarker = true then
    let meta := MetadataParser.Parse st.metadataLines
    some
      (match st.contentBlocks with
       | [] => ⟨meta, st.contentBlocks⟩
       | b :: _ =>
         if meta.Summary = "" then
           ⟨{ meta with Summary := replaceNL b }, st.contentBlocks⟩
         else ⟨meta, st.contentBlocks⟩)
  else none

/-- `extractBlogPosts` of `writer.go`: if the top-level strategy yields
a post, return only it; otherwise run the nested-outline walk with
`extractListPost`. -/
def extractBlogPosts (doc : Node) : List BlogPost :=
  match extractTopLevelPost doc with
  | some p => [p]
  | none => nestedWalkPosts extractListPostF doc

/-! ## Example documents

Concrete trees used by the claim theorems.  They mirror the shapes that
goldmark produces: a List's children are ListItems, a ListItem's
children are a text block (kind `.other`, carrying its raw lines) and
possibly a nested List, and the `Text(source)` of an inner node is the
newline-joined flattening of its subtree. -/

def textBlock (s : String) : Node := .mk .other 0 s s .nil

-- Journal shape: `- [[Blog]]` wrapping a nested list with metadata and
-- one content item.
def docC3inner : Node :=
  .mk .list 0 "" ""
    (.cons (.mk .listItem 0 "type:: blog\ntitle:: C" (""
      ) (.cons (textBlock "type:: blog\ntitle:: C") .nil))
      (.cons (.mk .listItem 0 "content" "" (.cons (textBlock "content") .nil)) .nil))

def docC3outer : Node :=
  .mk .list 0 "" ""
    (.cons
      (.mk .listItem 0 "[[Blog]]\ntype:: blog\ntitle:: C\ncontent" ""
        (.cons (textBlock "[[Blog]]") (.cons docC3inner .nil)))
      .nil)

def docC3 : Node :=
  .mk .other 0 "" "" (.cons docC3outer .nil)

-- Case/spacing variants of the marker: never detected.
def docV1 : Node :=
  .mk .other 0 "" ""
    (.cons
      (.mk .list 0 "" ""
        (.cons (.mk .listItem 0 "Type::blog" "" (.cons (textBlock "Type::blog") .nil))
          (.cons (.mk .listItem 0 "x" "" (.cons (textBlock "x") .nil)) .nil)))
      .nil)

def docV2 : Node :=
  .mk .other 0 "" ""
    (.cons
      (.mk .list 0 "" ""
        (.cons (.mk .listItem 0 "type::  blog" "" (.cons (textBlock "type::  blog") .nil))
          (.cons (.mk .listItem 0 "x" "" (.cons (textBlock "x") .nil)) .nil)))
      .nil)

-- A flat marked list with one content item, used as a positive witness.
def markedFlatList (ti co : String) : Node :=
  .mk .list 0 "" ""
    (.cons
      (.mk .listItem 0 ("type:: blog\ntitle:: " ++ ti) ""
        (.cons (textBlock ("type:: blog\ntitle:: " ++ ti)) .nil))
      (.cons (.mk .listItem 0 co "" (.cons (.mk .other 0 co co .nil) .nil)) .nil))

-- Two independent marked lists in one document.
def docC4 : Node :=
  .mk .other 0 "" ""
    (.cons (markedFlatList "A" "Hello A") (.cons (markedFlatList "B" "Hello B") .nil))

def docC1 : Node :=
  .mk .other 0 "" "" (.cons (markedFlatList "W" "Hello W") .nil)

-- C2 failing input: a marked list wrapped in two category levels
-- (Category → Subcategory → Blog{meta; content}), where the wrapping
-- Subcategory item's own line is `author:: Wrap`.
def docC2meta : Node :=
  .mk .listItem 0 "type:: blog\ntitle:: T\nstatus:: online" ""
    (.cons (textBlock "type:: blog\ntitle:: T\nstatus:: online") .nil)

def docC2lC : Node :=
  .mk .list 0 "" ""
    (.cons docC2meta
      (.cons (.mk .listItem 0 "content here" "" (.cons (textBlock "content here") .nil)) .nil))

def docC2lB : Node :=
  .mk .list 0 "" ""
    (.cons
      (.mk .listItem 0 "author:: Wrap\ntype:: blog\ntitle:: T\nstatus:: online\ncontent here" ""
        (.cons (textBlock "author:: Wrap") (.cons docC2lC .nil)))
      .nil)

def docC2 : Node :=
  .mk .other 0 "" ""
    (.cons
      (.mk .list 0 "" ""
        (.cons
          (.mk .listItem 0
            "Category\nauthor:: Wrap\ntype:: blog\ntitle:: T\nstatus:: online\ncontent here" ""
            (.cons (textBlock "Category") (.cons docC2lB .nil)))
          .nil))
      .nil)

-- C7 counterexample: the second (non-metadata) item has no children,
-- so its reconstructed text is empty.
def docC7meta : Node :=
  .mk .listItem 0 "type:: blog\ntitle:: X" ""
    (.cons (textBlock "type:: blog\ntitle:: X") .nil)

def docC7list : Node :=
  .mk .list 0 "" "" (.cons docC7meta (.cons (.mk .listItem 0 "" "" .nil) .nil))

-- C5 example: content blocks ["Line one.\nLine two.", "Second block"].
def docC5meta : Node :=
  .mk .listItem 0 "type:: blog\ntitle:: S" ""
    (.cons (textBlock "type:: blog\ntitle:: S") .nil)

def docC5list : Node :=
  .mk .list 0 "" ""
    (.cons docC5meta
      (.cons (.mk .listItem 0 "Line one.\nLine two." ""
          (.cons (.mk .other 0 "Line one.\nLine two." "Line one.\nLine two.\n" .nil) .nil))
        (.cons (.mk .listItem 0 "Second block" ""
            (.cons (.mk .other 0 "Second block" "Second block\n" .nil) .nil))
          .nil)))

-- C9: a childless list followed by a marked list.
def docC9 : Node :=
  .mk .other 0 "" ""
    (.cons (.mk .list 0 "" "" .nil) (.cons (markedFlatList "R" "Rest found") .nil))

/-! ## Path and shape lemmas -/

theorem listAppCancel : ∀ (a b c : List Nat), a ++ b = a ++ c → b = c := by
  intro a b c h
  exact List.append_cancel_left h

mutual
theorem listPaths_shape : ∀ (n : Node) (q r : List Nat),
    r ∈ listPaths q n → ∃ t2, r = q ++ t2
  | .mk k l t s cs, q, r, h => by
    rw [listPaths] at h
    rcases List.mem_append.mp h with h1 | h2
    · refine ⟨[], ?_⟩
      split at h1 <;> simp_all
    · obtain ⟨j, t2, _, ht⟩ := listPathsL_shape cs q 0 r h2
      exact ⟨j :: t2, ht⟩
theorem listPathsL_shape : ∀ (cs : NodeList) (q : List Nat) (i : Nat) (r : List Nat),
    r ∈ listPathsL q i cs → ∃ j t2, i ≤ j ∧ r = q ++ j :: t2
  | .nil, q, i, r, h => by simp [listPathsL] at h
  | .cons c cs, q, i, r, h => by
    rw [listPathsL] at h
    rcases List.mem_append.mp h with h1 | h2
    · obtain ⟨t2, ht⟩ := listPaths_shape c (q ++ [i]) r h1
      exact ⟨i, t2, Nat.le_refl i, by simpa using ht⟩
    · obtain ⟨j, t2, hj, ht⟩ := listPathsL_shape cs q (i + 1) r h2
      exact ⟨j, t2, by omega, ht⟩
end

mutual
theorem moP_shape : ∀ (n : Node) (q : List Nat) (p : List Nat) (m : Node),
    (p, m) ∈ markedOutermostP q n → ∃ t2, p = q ++ t2
  | .mk k l t s cs, q, p, m, h => by
    rw [markedOutermostP] at h
    split at h
    · refine ⟨[], ?_⟩
      simp_all
    · obtain ⟨j, t2, _, ht⟩ := moPL_shape cs q 0 p m h
      exact ⟨j :: t2, ht⟩
theorem moPL_shape : ∀ (cs : NodeList) (q : List Nat) (i : Nat) (p : List Nat) (m : Node),
    (p, m) ∈ markedOutermostPL q i cs → ∃ j t2, i ≤ j ∧ p = q ++ j :: t2
  | .nil, q, i, p, m, h => by simp [markedOutermostPL] at h
  | .cons c cs, q, i, p, m, h => by
    rw [markedOutermostPL] at h
    rcases List.mem_append.mp h with h1 | h2
    · obtain ⟨t2, ht⟩ := moP_shape c (q ++ [i]) p m h1
      exact ⟨i, t2, Nat.le_refl i, by simpa using ht⟩
    · obtain ⟨j, t2, hj, ht⟩ := moPL_shape cs q (i + 1) p m h2
      exact ⟨j, t2, by omega, ht⟩
end

/-- Anything the marking walk of one extracted pair adds extends the
pair's own path, which extends the subtree root. -/
theorem extPaths_shape (n : Node) (q r : List Nat)
    (h : r ∈ (markedOutermostP q n).flatMap pathsOf) : ∃ t2, r = q ++ t2 := by
  obtain ⟨⟨p, m⟩, hpm, hr⟩ := List.mem_flatMap.mp h
  obtain ⟨t1, ht1⟩ := moP_shape n q p m hpm
  obtain ⟨t2, ht2⟩ := listPaths_shape m p r hr
  exact ⟨t1 ++ t2, by simp [ht2, ht1]⟩

theorem extPathsL_shape (cs : NodeList) (q : List Nat) (i : Nat) (r : List Nat)
    (h : r ∈ (markedOutermostPL q i cs).flatMap pathsOf) :
    ∃ j t2, i ≤ j ∧ r = q ++ j :: t2 := by
  obtain ⟨⟨p, m⟩, hpm, hr⟩ := List.mem_flatMap.mp h
  obtain ⟨j, t1, hj, ht1⟩ := moPL_shape cs q i p m hpm
  obtain ⟨t2, ht2⟩ := listPaths_shape m p r hr
  exact ⟨j, t1 ++ t2, hj, by simp [ht2, ht1]⟩

/-! ## Walk lemmas -/

section WalkLemmas

variable (f : Node → BlogPost)

/-- The child traversal visits the child with `walkStep` and then walks
its own children: the `cons` step of `walkChildren` is one `walkNode`
call on the child. -/
theorem walkChildren_cons (q : List Nat) (i : Nat) (c : Node) (rest : NodeList)
    (st : List (List Nat) × List BlogPost) :
    walkChildren f q i (.cons c rest) st =
      walkChildren f q (i + 1) rest (walkNode f (q ++ [i]) c st) := by
  cases c with
  | mk k l t s cs => rw [walkChildren, walkNode]

theorem walkChildren_skip : ∀ (cs : NodeList) (q : List Nat) (i : Nat)
    (st : List (List Nat) × List BlogPost),
    (∀ r, r ∈ listPathsL q i cs → r ∈ st.1) → walkChildren f q i cs st = st
  | .nil, q, i, st, h => by rw [walkChildren]
  | .cons (.mk k l t s cs) rest, q, i, st, h => by
    rw [walkChildren]
    have hstep : walkStep f (q ++ [i]) (.mk k l t s cs) st = st := by
      rw [walkStep, if_neg]
      rintro ⟨hk, hq, hm⟩
      exact hq (h (q ++ [i])
        (by rw [listPathsL]
            exact List.mem_append_left _
              (by rw [listPaths]; simp [Node.kind] at hk; simp [hk])))
    rw [hstep]
    rw [walkChildren_skip cs (q ++ [i]) 0 st
      (fun r hr => h r (by
        rw [listPathsL]
        exact List.mem_append_left _ (by rw [listPaths]; exact List.mem_append_right _ hr)))]
    exact walkChildren_skip rest q (i + 1) st
      (fun r hr => h r (by rw [listPathsL]; exact List.mem_append_right _ hr))

theorem walkChildren_char : ∀ (cs : NodeList) (q : List Nat) (i : Nat)
    (st : List (List Nat) × List BlogPost),
    (∀ r, r ∈ listPathsL q i cs → r ∉ st.1) →
    walkChildren f q i cs st =
      (st.1 ++ (markedOutermostPL q i cs).flatMap pathsOf,
       st.2 ++ (markedOutermostL cs).map f)
  | .nil, q, i, st, h => by
    rw [walkChildren, markedOutermostPL, markedOutermostL]
    simp
  | .cons (.mk k l t s cs) rest, q, i, st, h => by
    rw [walkChildren]
    have hsub : ∀ r, r ∈ listPaths (q ++ [i]) (.mk k l t s cs) → r ∉ st.1 :=
      fun r hr => h r (by rw [listPathsL]; exact List.mem_append_left _ hr)
    have hrest : ∀ r, r ∈ listPathsL q (i + 1) rest → r ∉ st.1 :=
      fun r hr => h r (by rw [listPathsL]; exact List.mem_append_right _ hr)
    have hdisj : ∀ r, r ∈ listPathsL q (i + 1) rest →
        r ∉ (markedOutermostP (q ++ [i]) (.mk k l t s cs)).flatMap pathsOf := by
      intro r hr hmem
      obtain ⟨j, t2, hj, ht⟩ := listPathsL_shape rest q (i + 1) r hr
      obtain ⟨t3, ht3⟩ := extPaths_shape (.mk k l t s cs) (q ++ [i]) r hmem
      rw [ht] at ht3
      have h4 : j :: t2 = i :: t3 := listAppCancel q _ _ (by simpa using ht3)
      have : j = i := by injection h4
      omega
    by_cases hm : k = NodeKind.list ∧ hasMarker (.mk k l t s cs) = true
    · have hq : (q ++ [i]) ∉ st.1 :=
        hsub (q ++ [i]) (by rw [listPaths]; simp [hm.1])
      have hstep : walkStep f (q ++ [i]) (.mk k l t s cs) st =
          (st.1 ++ listPaths (q ++ [i]) (.mk k l t s cs),
           st.2 ++ [f (.mk k l t s cs)]) := by
        rw [walkStep, if_pos]
        exact ⟨by simp [Node.kind, hm.1], hq, hm.2⟩
      rw [hstep]
      rw [walkChildren_skip f cs (q ++ [i]) 0 _
        (fun r hr => by
          show r ∈ st.1 ++ listPaths (q ++ [i]) (.mk k l t s cs)
          exact List.mem_append_right _
            (by rw [listPaths]; exact List.mem_append_right _ hr))]
      rw [walkChildren_char rest q (i + 1) _
        (fun r hr => by
          intro hmem
          rcases List.mem_append.mp hmem with h1 | h2
          · exact hrest r hr h1
          · refine hdisj r hr ?_
            rw [markedOutermostP, if_pos hm]
            simpa [pathsOf] using h2)]
      rw [markedOutermostPL, markedOutermostL, markedOutermostP, if_pos hm,
          markedOutermost, if_pos hm]
      simp [pathsOf]
    · have hstep : walkStep f (q ++ [i]) (.mk k l t s cs) st = st := by
        rw [walkStep, if_neg]
        rintro ⟨h1, _, h3⟩
        simp [Node.kind] at h1
        exact hm ⟨h1, h3⟩
      rw [hstep]
      rw [walkChildren_char cs (q ++ [i]) 0 st
        (fun r hr => hsub r (by rw [listPaths]; exact List.mem_append_right _ hr))]
      rw [walkChildren_char rest q (i + 1) _
        (fun r hr => by
          intro hmem
          rcases List.mem_append.mp hmem with h1 | h2
          · exact hrest r hr h1
          · refine hdisj r hr ?_
            rw [markedOutermostP, if_neg hm]
            exact h2)]
      rw [markedOutermostPL, markedOutermostL, markedOutermostP, if_neg hm,
          markedOutermost, if_neg hm]
      simp [List.flatMap_append]

theorem walkNode_char (n : Node) (q : List Nat)
    (st : List (List Nat) × List BlogPost)
    (h : ∀ r, r ∈ listPaths q n → r ∉ st.1) :
    walkNode f q n st =
      (st.1 ++ (markedOutermostP q n).flatMap pathsOf,
       st.2 ++ (markedOutermost n).map f) := by
  cases n with
  | mk k l t s cs =>
    rw [walkNode]
    by_cases hm : k = NodeKind.list ∧ hasMarker (.mk k l t s cs) = true
    · have hq : q ∉ st.1 := h q (by rw [listPaths]; simp [hm.1])
      have hstep : walkStep f q (.mk k l t s cs) st =
          (st.1 ++ listPaths q (.mk k l t s cs), st.2 ++ [f (.mk k l t s cs)]) := by
        rw [walkStep, if_pos]
        exact ⟨by simp [Node.kind, hm.1], hq, hm.2⟩
      rw [hstep]
      rw [walkChildren_skip f cs q 0 _
        (fun r hr => by
          show r ∈ st.1 ++ listPaths q (.mk k l t s cs)
          exact List.mem_append_right _
            (by rw [listPaths]; exact List.mem_append_right _ hr))]
      rw [markedOutermostP, if_pos hm, markedOutermost, if_pos hm]
      simp [pathsOf]
    · have hstep : walkStep f q (.mk k l t s cs) st = st := by
        rw [walkStep, if_neg]
        rintro ⟨h1, _, h3⟩
        simp [Node.kind] at h1
        exact hm ⟨h1, h3⟩
      rw [hstep]
      rw [walkChildren_char f cs q 0 st
        (fun r hr => h r (by rw [listPaths]; exact List.mem_append_right _ hr))]
      rw [markedOutermostP, if_neg hm, markedOutermost, if_neg hm]

/-- The nested-outline walk yields exactly one post per outermost marked
list, in document order. -/
theorem nestedWalkPosts_eq (doc : Node) :
    nestedWalkPosts f doc = (markedOutermost doc).map f := by
  rw [nestedWalkPosts, walkNode_char f doc [] ([], []) (by simp)]
  simp

/-- The final processed set consists of the List-node paths of the
subtrees of the extracted lists. -/
theorem walkProcessed_eq (doc : Node) :
    (walkNode f [] doc ([], [])).1 = (markedOutermostP [] doc).flatMap pathsOf := by
  rw [walkNode_char f doc [] ([], []) (by simp)]
  simp

theorem walkChildren_mono : ∀ (cs : NodeList) (q : List Nat) (i : Nat)
    (st : List (List Nat) × List BlogPost) (r : List Nat),
    r ∈ st.1 → r ∈ (walkChildren f q i cs st).1
  | .nil, q, i, st, r, h => by rw [walkChildren]; exact h
  | .cons (.mk k l t s cs) rest, q, i, st, r, h => by
    rw [walkChildren]
    refine walkChildren_mono rest q (i + 1) _ r ?_
    refine walkChildren_mono cs (q ++ [i]) 0 _ r ?_
    rw [walkStep]
    split
    · exact List.mem_append_left _ h
    · exact h

theorem walkNode_mono (n : Node) (q : List Nat)
    (st : List (List Nat) × List BlogPost) (r : List Nat) (h : r ∈ st.1) :
    r ∈ (walkNode f q n st).1 := by
  cases n with
  | mk k l t s cs =>
    rw [walkNode]
    refine walkChildren_mono f cs q 0 _ r ?_
    rw [walkStep]
    split
    · exact List.mem_append_left _ h
    · exact h

theorem walkChildren_congr : ∀ (cs : NodeList) (q : List Nat) (i : Nat)
    (s₁ s₂ : List (List Nat)) (p : List BlogPost), (∀ r, r ∈ s₁ ↔ r ∈ s₂) →
    (walkChildren f q i cs (s₁, p)).2 = (walkChildren f q i cs (s₂, p)).2 ∧
      ∀ r, r ∈ (walkChildren f q i cs (s₁, p)).1 ↔ r ∈ (walkChildren f q i cs (s₂, p)).1
  | .nil, q, i, s₁, s₂, p, h => by rw [walkChildren, walkChildren]; exact ⟨rfl, h⟩
  | .cons (.mk k l t s cs) rest, q, i, s₁, s₂, p, h => by
    rw [walkChildren, walkChildren]
    have hstep :
        (walkStep f (q ++ [i]) (.mk k l t s cs) (s₁, p)).2 =
          (walkStep f (q ++ [i]) (.mk k l t s cs) (s₂, p)).2 ∧
        ∀ r, r ∈ (walkStep f (q ++ [i]) (.mk k l t s cs) (s₁, p)).1 ↔
          r ∈ (walkStep f (q ++ [i]) (.mk k l t s cs) (s₂, p)).1 := by
      rw [walkStep, walkStep]
      by_cases hc : Node.kind (.mk k l t s cs) = NodeKind.list ∧ (q ++ [i]) ∉ s₁ ∧
          hasMarker (.mk k l t s cs) = true
      · rw [if_pos hc, if_pos ⟨hc.1, fun hq => hc.2.1 ((h _).mpr hq), hc.2.2⟩]
        refine ⟨rfl, fun r => ?_⟩
        constructor
        · intro hm
          rcases List.mem_append.mp hm with h1 | h2
          · exact List.mem_append_left _ ((h r).mp h1)
          · exact List.mem_append_right _ h2
        · intro hm
          rcases List.mem_append.mp hm with h1 | h2
          · exact List.mem_append_left _ ((h r).mpr h1)
          · exact List.mem_append_right _ h2
      · rw [if_neg hc, if_neg (by
          rintro ⟨h1, h2, h3⟩
          exact hc ⟨h1, fun hq => h2 ((h _).mp hq), h3⟩)]
        exact ⟨rfl, h⟩
    obtain ⟨hp1, hs1⟩ := hstep
    have e₁ : walkStep f (q ++ [i]) (.mk k l t s cs) (s₁, p) =
        ((walkStep f (q ++ [i]) (.mk k l t s cs) (s₁, p)).1,
         (walkStep f (q ++ [i]) (.mk k l t s cs) (s₁, p)).2) := rfl
    have e₂ : walkStep f (q ++ [i]) (.mk k l t s cs) (s₂, p) =
        ((walkStep f (q ++ [i]) (.mk k l t s cs) (s₂, p)).1,
         (walkStep f (q ++ [i]) (.mk k l t s cs) (s₂, p)).2) := rfl
    rw [e₁, e₂, hp1]
    obtain ⟨hp2, hs2⟩ := walkChildren_congr cs (q ++ [i]) 0 _ _ _ hs1
    have e₃ : walkChildren f (q ++ [i]) 0 cs
        ((walkStep f (q ++ [i]) (.mk k l t s cs) (s₁, p)).1,
         (walkStep f (q ++ [i]) (.mk k l t s cs) (s₂, p)).2) =
        ((walkChildren f (q ++ [i]) 0 cs
          ((walkStep f (q ++ [i]) (.mk k l t s cs) (s₁, p)).1,
           (walkStep f (q ++ [i]) (.mk k l t s cs) (s₂, p)).2)).1,
         (walkChildren f (q ++ [i]) 0 cs
          ((walkStep f (q ++ [i]) (.mk k l t s cs) (s₁, p)).1,
           (walkStep f (q ++ [i]) (.mk k l t s cs) (s₂, p)).2)).2) := rfl
    have e₄ : walkChildren f (q ++ [i]) 0 cs
        ((walkStep f (q ++ [i]) (.mk k l t s cs) (s₂, p)).1,
         (walkStep f (q ++ [i]) (.mk k l t s cs) (s₂, p)).2) =
        ((walkChildren f (q ++ [i]) 0 cs
          ((walkStep f (q ++ [i]) (.mk k l t s cs) (s₂, p)).1,
           (walkStep f (q ++ [i]) (.mk k l t s cs) (s₂, p)).2)).1,
         (walkChildren f (q ++ [i]) 0 cs
          ((walkStep f (q ++ [i]) (.mk k l t s cs) (s₂, p)).1,
           (walkStep f (q ++ [i]) (.mk k l t s cs) (s₂, p)).2)).2) := rfl
    rw [e₃, e₄, hp2]
    exact walkChildren_congr rest q (i + 1) _ _ _ hs2

end WalkLemmas

/-! ## Outermost-marked-list lemmas -/

/-- `q` lies in the subtree rooted at path `r`. -/
def underPath (r q : List Nat) : Prop := ∃ t2, q = r ++ t2

mutual
theorem mo_marked : ∀ (n m : Node), m ∈ markedOutermost n →
    m.kind = .list ∧ hasMarker m = true
  | .mk k l t s cs, m, h => by
    rw [markedOutermost] at h
    split at h
    · rename_i hc
      have hm : m = Node.mk k l t s cs := by simpa using h
      subst hm
      exact ⟨by simp [Node.kind, hc.1], hc.2⟩
    · exact moL_marked cs m h
theorem moL_marked : ∀ (cs : NodeList) (m : Node), m ∈ markedOutermostL cs →
    m.kind = .list ∧ hasMarker m = true
  | .nil, m, h => by rw [markedOutermostL] at h; simp at h
  | .cons c cs, m, h => by
    rw [markedOutermostL] at h
    rcases List.mem_append.mp h with h1 | h2
    · exact mo_marked c m h1
    · exact moL_marked cs m h2
end

mutual
theorem moP_anti : ∀ (n : Node) (q p₁ : List Nat) (m₁ : Node) (p₂ : List Nat)
    (m₂ : Node), (p₁, m₁) ∈ markedOutermostP q n → (p₂, m₂) ∈ markedOutermostP q n →
    underPath p₁ p₂ → p₁ = p₂
  | .mk k l t s cs, q, p₁, m₁, p₂, m₂, h₁, h₂, hu => by
    by_cases hc : k = NodeKind.list ∧ hasMarker (.mk k l t s cs) = true
    · rw [markedOutermostP, if_pos hc] at h₁ h₂
      have e₁ : p₁ = q := by
        have := List.mem_singleton.mp h₁
        simpa using congrArg Prod.fst this
      have e₂ : p₂ = q := by
        have := List.mem_singleton.mp h₂
        simpa using congrArg Prod.fst this
      rw [e₁, e₂]
    · rw [markedOutermostP, if_neg hc] at h₁ h₂
      exact moPL_anti cs q 0 p₁ m₁ p₂ m₂ h₁ h₂ hu
theorem moPL_anti : ∀ (cs : NodeList) (q : List Nat) (i : Nat) (p₁ : List Nat)
    (m₁ : Node) (p₂ : List Nat) (m₂ : Node),
    (p₁, m₁) ∈ markedOutermostPL q i cs → (p₂, m₂) ∈ markedOutermostPL q i cs →
    underPath p₁ p₂ → p₁ = p₂
  | .nil, q, i, p₁, m₁, p₂, m₂, h₁, h₂, hu => by
    rw [markedOutermostPL] at h₁; simp at h₁
  | .cons c cs, q, i, p₁, m₁, p₂, m₂, h₁, h₂, hu => by
    rw [markedOutermostPL] at h₁ h₂
    rcases List.mem_append.mp h₁ with ha | ha <;>
      rcases List.mem_append.mp h₂ with hb | hb
    · exact moP_anti c (q ++ [i]) p₁ m₁ p₂ m₂ ha hb hu
    · obtain ⟨t₁, ht₁⟩ := moP_shape c (q ++ [i]) p₁ m₁ ha
      obtain ⟨j, t₂, hj, ht₂⟩ := moPL_shape cs q (i + 1) p₂ m₂ hb
      obtain ⟨u, hu'⟩ := hu
      rw [ht₁, ht₂] at hu'
      have h4 : j :: t₂ = i :: (t₁ ++ u) := listAppCancel q _ _ (by simpa using hu')
      have : j = i := by injection h4
      omega
    · obtain ⟨j, t₁, hj, ht₁⟩ := moPL_shape cs q (i + 1) p₁ m₁ ha
      obtain ⟨t₂, ht₂⟩ := moP_shape c (q ++ [i]) p₂ m₂ hb
      obtain ⟨u, hu'⟩ := hu
      rw [ht₁, ht₂] at hu'
      have h4 : i :: t₂ = j :: (t₁ ++ u) := listAppCancel q _ _ (by simpa using hu')
      have : i = j := by injection h4
      omega
    · exact moPL_anti cs q (i + 1) p₁ m₁ p₂ m₂ ha hb hu
end

theorem moL_app : ∀ (as bs : NodeList),
    markedOutermostL (NodeList.app as bs) = markedOutermostL as ++ markedOutermostL bs
  | .nil, bs => by rw [NodeList.app, markedOutermostL]; simp
  | .cons a as, bs => by
    rw [NodeList.app, markedOutermostL, markedOutermostL, moL_app as bs]
    simp

/-! ## Locating marked lists by path -/

theorem nodeAtL_some : ∀ (cs : NodeList) (i : Nat) (is : List Nat) (m : Node),
    nodeAtL cs i is = some m → ∃ c, NodeList.get? cs i = some c ∧ nodeAt c is = some m
  | .nil, i, is, m, h => by rw [nodeAtL] at h; exact absurd h (by simp)
  | .cons c cs, 0, is, m, h => by
    rw [nodeAtL] at h
    exact ⟨c, rfl, h⟩
  | .cons c cs, i + 1, is, m, h => by
    rw [nodeAtL] at h
    exact nodeAtL_some cs i is m h

theorem nodeAtL_of_get : ∀ (cs : NodeList) (i : Nat) (c : Node) (is : List Nat),
    NodeList.get? cs i = some c → nodeAtL cs i is = nodeAt c is
  | .nil, i, c, is, h => by rw [NodeList.get?] at h; exact absurd h (by simp)
  | .cons a as, 0, c, is, h => by
    rw [NodeList.get?] at h
    rw [nodeAtL]
    rw [show a = c from by simpa using h]
  | .cons a as, i + 1, c, is, h => by
    rw [NodeList.get?] at h
    rw [nodeAtL]
    exact nodeAtL_of_get as i c is h

theorem mo_mem_of_get : ∀ (cs : NodeList) (i : Nat) (c : Node) (m : Node),
    NodeList.get? cs i = some c → m ∈ markedOutermost c → m ∈ markedOutermostL cs
  | .nil, i, c, m, h, hm => by rw [NodeList.get?] at h; exact absurd h (by simp)
  | .cons a as, 0, c, m, h, hm => by
    rw [NodeList.get?] at h
    rw [markedOutermostL]
    exact List.mem_append_left _ (by rw [show a = c from by simpa using h]; exact hm)
  | .cons a as, i + 1, c, m, h, hm => by
    rw [NodeList.get?] at h
    rw [markedOutermostL]
    exact List.mem_append_right _ (mo_mem_of_get as i c m h hm)

theorem matchedAtB_cons (k : NodeKind) (l : Nat) (t s : String) (cs : NodeList)
    (i : Nat) (c : Node) (p : List Nat) (h : NodeList.get? cs i = some c) :
    matchedAtB (.mk k l t s cs) (i :: p) = matchedAtB c p := by
  rw [matchedAtB, matchedAtB, nodeAt, nodeAtL_of_get cs i c p h]

/-- A List node whose first item's text contains the marker, located at
a path all of whose proper ancestors fail the marker test, is one of the
outermost marked lists. -/
theorem nodeAt_marked_mem : ∀ (s : List Nat) (n m : Node),
    nodeAt n s = some m → m.kind = .list → hasMarker m = true →
    (∀ j, j < s.length → matchedAtB n (s.take j) = false) →
    m ∈ markedOutermost n
  | [], n, m, h, hk, hm, hb => by
    rw [nodeAt] at h
    have hnm : n = m := by simpa using h
    subst hnm
    cases n with
    | mk k l t s cs =>
      rw [markedOutermost, if_pos ⟨by simpa [Node.kind] using hk, hm⟩]
      simp
  | i :: is, n, m, h, hk, hm, hb => by
    cases n with
    | mk k l t s cs =>
      have h0 : matchedAtB (.mk k l t s cs) [] = false := hb 0 (by simp)
      rw [matchedAtB] at h0
      rw [nodeAt] at h0
      simp only [Option.some.injEq] at h0
      have hnm : ¬(k = NodeKind.list ∧ hasMarker (.mk k l t s cs) = true) := by
        rintro ⟨h1, h2⟩
        subst h1
        simp [Node.kind, h2] at h0
      rw [nodeAt] at h
      obtain ⟨c, hc, hcm⟩ := nodeAtL_some cs i is m h
      rw [markedOutermost, if_neg hnm]
      refine mo_mem_of_get cs i c m hc ?_
      refine nodeAt_marked_mem is c m hcm hk hm ?_
      intro j hj
      have := hb (j + 1) (by simpa using hj)
      rw [List.take_succ_cons, matchedAtB_cons k l t s cs i c (is.take j) hc] at this
      exact this

/-! ## Top-level walk lemmas -/

theorem tlWalkChildren_cons (pk : NodeKind) (c : Node) (rest : NodeList)
    (st : TLState) :
    tlWalkChildren pk (.cons c rest) st = tlWalkChildren pk rest (tlWalk pk c st) := by
  cases c with
  | mk k l t s cs => rw [tlWalkChildren, tlWalk]

theorem tlWalkChildren_app : ∀ (as : NodeList) (bs : NodeList) (pk : NodeKind)
    (st : TLState),
    tlWalkChildren pk (NodeList.app as bs) st = tlWalkChildren pk bs (tlWalkChildren pk as st)
  | .nil, bs, pk, st => by rw [NodeList.app, tlWalkChildren]
  | .cons (.mk k l t s cs) rest, bs, pk, st => by
    rw [NodeList.app, tlWalkChildren, tlWalkChildren]
    exact tlWalkChildren_app rest bs pk _

/-- Visiting a childless List node leaves the top-level state unchanged:
it is not a paragraph, and its item loop appends nothing. -/
theorem tlWalk_emptyList (pk : NodeKind) (el : Nat) (et es : String) (st : TLState) :
    tlWalk pk (.mk .list el et es .nil) st = st := by
  rw [tlWalk, tlWalkChildren, tlVisit]
  have h1 : ¬(Node.kind (.mk NodeKind.list el et es .nil) = NodeKind.paragraph ∧
      strContains (Node.text (.mk NodeKind.list el et es .nil)) "::" = true) := by
    rintro ⟨h, -⟩
    simp [Node.kind] at h
  rw [if_neg h1]
  split
  · rw [tlItems.eq_def]
    simp [Node.children]
  · rfl

/-! ## Content-loop lemmas -/

theorem contentItemsW_eq : ∀ (cs : NodeList),
    contentItemsW cs = ((NodeList.toList cs).map extractText).filter (fun b => b != "")
  | .nil => by rw [contentItemsW, NodeList.toList]; simp
  | .cons it rest => by
    rw [contentItemsW, NodeList.toList, contentItemsW_eq rest]
    by_cases h : extractText it = "" <;> simp [h, List.filter_cons]

theorem contentItemsT_eq : ∀ (cs : NodeList),
    contentItemsT cs = (NodeList.toList cs).map extractNodeText
  | .nil => by rw [contentItemsT, NodeList.toList]; simp
  | .cons it rest => by
    rw [contentItemsT, NodeList.toList, contentItemsT_eq rest]
    simp

/-! ## Metadata parser lemmas -/

/-- `setField` never touches the `Summary` field: the parser has no
`summary` key. -/
theorem setField_Summary (meta : BlogMeta) (k v : String) :
    (setField meta k v).Summary = meta.Summary := by
  rw [setField]
  repeat' split
  all_goals rfl

theorem parse_foldl_Summary : ∀ (lines : List String) (meta : BlogMeta),
    (lines.foldl
      (fun meta line =>
        match findKV line with
        | some (k, v) => setField meta k v
        | none => meta)
      meta).Summary = meta.Summary
  | [], meta => rfl
  | line :: rest, meta => by
    rw [List.foldl_cons, parse_foldl_Summary rest]
    cases hf : findKV line with
    | none => simp
    | some kv => simp [setField_Summary]

/-- The parsed metadata record never declares a summary. -/
theorem Parse_Summary (lines : List String) :
    (MetadataParser.Parse lines).Summary = "" := by
  rw [MetadataParser.Parse, parse_foldl_Summary]

/-- Keys other than the five recognized ones change nothing. -/
theorem setField_unknown (meta : BlogMeta) (k v : String)
    (h1 : k ≠ "date") (h2 : k ≠ "title") (h3 : k ≠ "author")
    (h4 : k ≠ "header") (h5 : k ≠ "status") : setField meta k v = meta := by
  rw [setField, if_neg h1, if_neg h2, if_neg h3, if_neg h4, if_neg h5]

/-- A line on which the pattern finds no match is ignored wherever it
occurs. -/
theorem Parse_ignores (l₁ l₂ : List String) (line : String)
    (h : findKV line = none) :
    MetadataParser.Parse (l₁ ++ line :: l₂) = MetadataParser.Parse (l₁ ++ l₂) := by
  rw [MetadataParser.Parse, MetadataParser.Parse, List.foldl_append,
      List.foldl_append, List.foldl_cons, h]

theorem upToParen_closes : ∀ (b : List Char) (c : List Char), ')' ∉ b →
    upToParen (b ++ ')' :: c) = some b
  | [], c, h => by rw [List.nil_append, upToParen]; simp
  | x :: xs, c, h => by
    rw [List.cons_append, upToParen]
    have hx : ¬x = ')' := fun he => h (he ▸ List.mem_cons_self x xs)
    rw [if_neg hx, upToParen_closes xs c (fun hm => h (List.mem_cons_of_mem x hm))]
    rfl

theorem extractPathL_group : ∀ (a b c : List Char), '(' ∉ a → ')' ∉ b →
    extractPathL (a ++ '(' :: (b ++ ')' :: c)) = some b
  | [], b, c, ha, hb => by
    rw [List.nil_append, extractPathL, if_pos rfl, upToParen_closes b c hb]
  | x :: xs, b, c, ha, hb => by
    rw [List.cons_append, extractPathL]
    have hx : ¬x = '(' := fun he => ha (he ▸ List.mem_cons_self x xs)
    rw [if_neg hx]
    exact extractPathL_group xs b c (fun hm => ha (List.mem_cons_of_mem x hm)) hb

theorem extractPathL_none : ∀ (l : List Char), '(' ∉ l → extractPathL l = none
  | [], h => by rw [extractPathL]
  | x :: xs, h => by
    rw [extractPathL]
    have hx : ¬x = '(' := fun he => h (he ▸ List.mem_cons_self x xs)
    rw [if_neg hx]
    exact extractPathL_none xs (fun hm => h (List.mem_cons_of_mem x hm))

/-- Values without an opening parenthesis pass through verbatim. -/
theorem extractPath_verbatim (raw : String) (h : '(' ∉ raw.data) :
    extractPath raw = raw := by
  rw [extractPath, extractPathL_none raw.data h]

/-- The stored header is the first parenthesized group of the value. -/
theorem extractPath_group (a b c : List Char) (ha : '(' ∉ a) (hb : ')' ∉ b) :
    extractPath ⟨a ++ '(' :: (b ++ ')' :: c)⟩ = ⟨b⟩ := by
  rw [extractPath]
  rw [show (⟨a ++ '(' :: (b ++ ')' :: c)⟩ : String).data = a ++ '(' :: (b ++ ')' :: c)
    from rfl]
  rw [extractPathL_group a b c ha hb]

/-! ## Unanchored key matching (C10) -/

theorem scanKV_colonFree : ∀ (a : List Char), (':' ∉ a) →
    ∀ (rw : List Char) (tail : List Char), ∃ rw₂, scanKV rw (a ++ tail) = scanKV rw₂ tail
  | [], h, rw, tail => ⟨rw, rfl⟩
  | x :: xs, h, rw, tail => by
    have hx : ¬x = ':' := fun he => h (he ▸ List.mem_cons_self x xs)
    have hxs : ':' ∉ xs := fun hm => h (List.mem_cons_of_mem x hm)
    rw [List.cons_append]
    by_cases hw : isWordChar x = true
    · rw [show scanKV rw (x :: (xs ++ tail)) = scanKV (x :: rw) (xs ++ tail) from by
        simp [scanKV, hx, hw]]
      exact scanKV_colonFree xs hxs (x :: rw) tail
    · rw [show scanKV rw (x :: (xs ++ tail)) = scanKV [] (xs ++ tail) from by
        simp [scanKV, hx, hw]]
      exact scanKV_colonFree xs hxs [] tail

theorem scanKV_date (v : List Char) :
    scanKV [] ("date:: ".data ++ v) = some ("date".data, ' ' :: v) := by
  simp [scanKV, isWordChar]

/-- The key match is not anchored: any colon-free text ending in a
non-word character may precede the key without affecting the result. -/
theorem findKV_unanchored (a : List Char) (c : Char) (v : List Char)
    (ha : ':' ∉ a) (hc : c ≠ ':') (hw : isWordChar c = false) :
    findKV ⟨a ++ c :: ("date:: ".data ++ v)⟩ =
      some ("date", trimGo ⟨v.dropWhile isRESpace⟩) := by
  rw [findKV]
  rw [show (⟨a ++ c :: ("date:: ".data ++ v)⟩ : String).data =
    a ++ c :: ("date:: ".data ++ v) from rfl]
  obtain ⟨rw₂, hrw⟩ := scanKV_colonFree a ha [] (c :: ("date:: ".data ++ v))
  rw [hrw]
  rw [show scanKV rw₂ (c :: ("date:: ".data ++ v)) = scanKV [] ("date:: ".data ++ v)
    from by simp [scanKV, hc, hw]]
  rw [scanKV_date]
  show some ((⟨"date".data⟩ : String), trimGo ⟨(' ' :: v).dropWhile isRESpace⟩) =
    some ("date", trimGo ⟨v.dropWhile isRESpace⟩)
  rw [List.dropWhile_cons]
  simp [isRESpace]

/-! ## Per-list extraction lemmas -/

theorem extractListPost_eq_nil (ln fi : Node)
    (h : (resolveListW ln fi).children = .nil) :
    extractListPost ln fi = ⟨MetadataParser.Parse [], []⟩ := by
  simp only [extractListPost, h]

theorem extractListPost_eq_cons (ln fi it : Node) (rest : NodeList)
    (h : (resolveListW ln fi).children = .cons it rest) :
    extractListPost ln fi =
      (match contentItemsW rest with
       | [] => ⟨MetadataParser.Parse (splitLines it.text), []⟩
       | b :: bs =>
         ⟨{ MetadataParser.Parse (splitLines it.text) with Summary := replaceNL b },
          b :: bs⟩) := by
  simp only [extractListPost, h]
  cases hcb : contentItemsW rest with
  | nil => rfl
  | cons b bs => simp [Parse_Summary]

theorem extractFromList_eq_nil (ln : Node)
    (h : (resolveListT ln).children = .nil) :
    extractFromList ln = ⟨MetadataParser.Parse [], []⟩ := by
  simp only [extractFromList, h]

theorem extractFromList_eq_cons (ln it : Node) (rest : NodeList)
    (h : (resolveListT ln).children = .cons it rest) :
    extractFromList ln =
      (match contentItemsT rest with
       | [] => ⟨MetadataParser.Parse (splitLines it.text), []⟩
       | b :: bs =>
         ⟨{ MetadataParser.Parse (splitLines it.text) with Summary := replaceNL b },
          b :: bs⟩) := by
  simp only [extractFromList, h]
  cases hcb : contentItemsT rest with
  | nil => rfl
  | cons b bs => rfl

theorem extractListPost_spec (ln fi : Node) :
    (extractListPost ln fi).Content = contentItemsW (restItems (resolveListW ln fi)) ∧
    ((extractListPost ln fi).Content = [] →
      (extractListPost ln fi).Meta.Summary = "") ∧
    (∀ b bs, (extractListPost ln fi).Content = b :: bs →
      (extractListPost ln fi).Meta.Summary = replaceNL b) := by
  cases hch : (resolveListW ln fi).children with
  | nil =>
    rw [extractListPost_eq_nil ln fi hch, restItems, hch, contentItemsW]
    exact ⟨rfl, fun _ => Parse_Summary [], fun b bs hb => by simp at hb⟩
  | cons it rest =>
    have he := extractListPost_eq_cons ln fi it rest hch
    rw [restItems, hch]
    cases hcb : contentItemsW rest with
    | nil =>
      rw [hcb] at he
      rw [he]
      exact ⟨rfl, fun _ => Parse_Summary _, fun b bs hb => by simp at hb⟩
    | cons b bs =>
      rw [hcb] at he
      rw [he]
      refine ⟨rfl, fun hb => by simp at hb, fun b' bs' hb => ?_⟩
      have : b = b' := by injection hb
      rw [← this]

theorem extractFromList_spec (ln : Node) :
    (extractFromList ln).Content = contentItemsT (restItems (resolveListT ln)) ∧
    ((extractFromList ln).Content = [] →
      (extractFromList ln).Meta.Summary = "") ∧
    (∀ b bs, (extractFromList ln).Content = b :: bs →
      (extractFromList ln).Meta.Summary = replaceNL b) := by
  cases hch : (resolveListT ln).children with
  | nil =>
    rw [extractFromList_eq_nil ln hch, restItems, hch, contentItemsT]
    exact ⟨rfl, fun _ => Parse_Summary [], fun b bs hb => by simp at hb⟩
  | cons it rest =>
    have he := extractFromList_eq_cons ln it rest hch
    rw [restItems, hch]
    cases hcb : contentItemsT rest with
    | nil =>
      rw [hcb] at he
      rw [he]
      exact ⟨rfl, fun _ => Parse_Summary _, fun b bs hb => by simp at hb⟩
    | cons b bs =>
      rw [hcb] at he
      rw [he]
      refine ⟨rfl, fun hb => by simp at hb, fun b' bs' hb => ?_⟩
      have : b = b' := by injection hb
      rw [← this]

theorem toList_length : ∀ (cs : NodeList), (NodeList.toList cs).length = NodeList.length cs
  | .nil => rfl
  | .cons c cs => by rw [NodeList.toList, NodeList.length, List.length_cons, toList_length cs]

theorem restItems_length (n : Node) :
    NodeList.length (restItems n) = NodeList.length n.children - 1 := by
  rw [restItems]
  cases hc : n.children with
  | nil => rfl
  | cons c cs =>
    show NodeList.length cs = NodeList.length (.cons c cs) - 1
    rw [NodeList.length]
    omega

/-! ## Node-level congruence (processed-set representation) -/

theorem walkStep_congr (f : Node → BlogPost) (q : List Nat) (n : Node)
    (s₁ s₂ : List (List Nat)) (p : List BlogPost) (h : ∀ r, r ∈ s₁ ↔ r ∈ s₂) :
    (walkStep f q n (s₁, p)).2 = (walkStep f q n (s₂, p)).2 ∧
      ∀ r, r ∈ (walkStep f q n (s₁, p)).1 ↔ r ∈ (walkStep f q n (s₂, p)).1 := by
  rw [walkStep, walkStep]
  by_cases hc : n.kind = NodeKind.list ∧ q ∉ s₁ ∧ hasMarker n = true
  · rw [if_pos hc, if_pos ⟨hc.1, fun hq => hc.2.1 ((h q).mpr hq), hc.2.2⟩]
    refine ⟨rfl, fun r => ?_⟩
    constructor
    · intro hm
      rcases List.mem_append.mp hm with h1 | h2
      · exact List.mem_append_left _ ((h r).mp h1)
      · exact List.mem_append_right _ h2
    · intro hm
      rcases List.mem_append.mp hm with h1 | h2
      · exact List.mem_append_left _ ((h r).mpr h1)
      · exact List.mem_append_right _ h2
  · rw [if_neg hc, if_neg (by
      rintro ⟨h1, h2, h3⟩
      exact hc ⟨h1, fun hq => h2 ((h q).mp hq), h3⟩)]
    exact ⟨rfl, h⟩

theorem walkNode_congr (f : Node → BlogPost) (doc : Node) (q : List Nat)
    (s₁ s₂ : List (List Nat)) (p : List BlogPost) (h : ∀ r, r ∈ s₁ ↔ r ∈ s₂) :
    (walkNode f q doc (s₁, p)).2 = (walkNode f q doc (s₂, p)).2 := by
  cases doc with
  | mk k l t s cs =>
    rw [walkNode, walkNode]
    obtain ⟨hp, hs⟩ := walkStep_congr f q (.mk k l t s cs) s₁ s₂ p h
    have e₁ : walkStep f q (.mk k l t s cs) (s₁, p) =
        ((walkStep f q (.mk k l t s cs) (s₁, p)).1,
         (walkStep f q (.mk k l t s cs) (s₁, p)).2) := rfl
    have e₂ : walkStep f q (.mk k l t s cs) (s₂, p) =
        ((walkStep f q (.mk k l t s cs) (s₂, p)).1,
         (walkStep f q (.mk k l t s cs) (s₂, p)).2) := rfl
    rw [e₁, e₂, hp]
    exact (walkChildren_congr f cs q 0 _ _ _ hs).1

/-! ## Claim theorems -/

/-- C1: for every document and every List node whose first child item's
raw text contains the exact substring `type:: blog`, the nested-outline
walk produces a post for that list, provided the list is not already in
the processed set when it is visited (equivalently: no proper ancestor
is itself a marked list, since those are exactly the nodes whose
extraction marks it beforehand); the variants `Type::blog` and
`type::  blog` never trigger extraction. -/
theorem c1_marker_detection :
    (∀ (f : Node → BlogPost) (doc m : Node) (q : List Nat),
      nodeAt doc q = some m → m.kind = .list → hasMarker m = true →
      (∀ j, j < q.length → matchedAtB doc (q.take j) = false) →
      f m ∈ nestedWalkPosts f doc) ∧
    (∀ f : Node → BlogPost, nestedWalkPosts f docV1 = []) ∧
    (∀ f : Node → BlogPost, nestedWalkPosts f docV2 = []) := by
  refine ⟨fun f doc m q hq hk hm hb => ?_, fun f => ?_, fun f => ?_⟩
  · rw [nestedWalkPosts_eq]
    exact List.mem_map_of_mem f (nodeAt_marked_mem q doc m hq hk hm hb)
  · rw [nestedWalkPosts_eq, show markedOutermost docV1 = [] from rfl, List.map_nil]
  · rw [nestedWalkPosts_eq, show markedOutermost docV2 = [] from rfl, List.map_nil]

theorem c1_witness :
    extractFromList (markedFlatList "W" "Hello W") ∈
      nestedWalkPosts extractFromList docC1 :=
  c1_marker_detection.1 extractFromList docC1 (markedFlatList "W" "Hello W") [0]
    rfl rfl rfl (by decide)

/-- C2 (code bug): for a marked list wrapped in two category levels
(`Category → Subcategory → Blog{meta; content}`, the goldmark shape in
which each nested List is the child of the wrapping ListItem), the code
resolves only one List level deep: `findDeepestList` recurses only into
direct List children, and a List's children are ListItems.  The
extracted post therefore parses its metadata from the wrapping
Subcategory item's flattened text — here picking up `author:: Wrap`
from the wrapping level, although the innermost list's first item
declares no author — and finds no sibling content items. -/
theorem c2_nesting_divergence :
    NestedListExtractor.Extract docC2 =
      [⟨⟨"", "T", "Wrap", "", "", "online"⟩, []⟩] ∧
    nestedWalkPosts extractListPostF docC2 =
      [⟨⟨"", "T", "Wrap", "", "", "online"⟩, []⟩] ∧
    (MetadataParser.Parse (splitLines (Node.text docC2meta))).Author = "" := by
  refine ⟨by decide, by decide, by decide⟩

/-- C3: after a marked list is extracted, the paths of every List node
of its subtree are in the processed set (the final set is exactly the
union of the subtree List paths of the extracted lists), the processed
set only grows during the walk, no extracted list lies strictly inside
the subtree of another (so no second post is produced from nested
lists), and the concrete journal-shaped document — whose inner metadata
list itself carries the marker — yields exactly one post. -/
theorem c3_dedup :
    (∀ (f : Node → BlogPost) (doc : Node),
      (walkNode f [] doc ([], [])).1 = (markedOutermostP [] doc).flatMap pathsOf) ∧
    (∀ (f : Node → BlogPost) (doc : Node) (p : List Nat) (m : Node) (r : List Nat),
      (p, m) ∈ markedOutermostP [] doc → r ∈ listPaths p m →
      r ∈ (walkNode f [] doc ([], [])).1) ∧
    (∀ (f : Node → BlogPost) (q : List Nat) (n : Node)
      (st : List (List Nat) × List BlogPost) (r : List Nat),
      r ∈ st.1 → r ∈ (walkNode f q n st).1) ∧
    (∀ (doc : Node) (p₁ : List Nat) (m₁ : Node) (p₂ : List Nat) (m₂ : Node),
      (p₁, m₁) ∈ markedOutermostP [] doc → (p₂, m₂) ∈ markedOutermostP [] doc →
      underPath p₁ p₂ → p₁ = p₂) ∧
    (∀ f : Node → BlogPost, (nestedWalkPosts f docC3).length = 1) := by
  refine ⟨fun f doc => walkProcessed_eq f doc,
    fun f doc p m r hpm hr => ?_,
    fun f q n st r h => walkNode_mono f n q st r h,
    fun doc p₁ m₁ p₂ m₂ h₁ h₂ hu => moP_anti doc [] p₁ m₁ p₂ m₂ h₁ h₂ hu,
    fun f => ?_⟩
  · rw [walkProcessed_eq]
    exact List.mem_flatMap.mpr ⟨(p, m), hpm, hr⟩
  · rw [nestedWalkPosts_eq, show markedOutermost docC3 = [docC3outer] from rfl]
    rfl

theorem c3_witness :
    [0, 0, 1] ∈ (walkNode extractFromList [] docC3 ([], [])).1 ∧
    (nestedWalkPosts extractFromList docC3).length = 1 :=
  ⟨c3_dedup.2.1 extractFromList docC3 [0] docC3outer [0, 0, 1]
      (by rw [show markedOutermostP [] docC3 = [([0], docC3outer)] from rfl]
          exact List.mem_singleton.mpr rfl)
      (by rw [show listPaths [0] docC3outer = [[0], [0, 0, 1]] from rfl]; decide),
   c3_dedup.2.2.2.2 extractFromList⟩

/-- C4: the walk does not stop after the first match — it yields one
post per outermost marked list, in pre-order document order; a document
with two independent marked lists yields their two posts, in order,
with independently parsed metadata and content. -/
theorem c4_multiple_posts :
    (∀ (f : Node → BlogPost) (doc : Node),
      nestedWalkPosts f doc = (markedOutermost doc).map f) ∧
    NestedListExtractor.Extract docC4 =
      [⟨⟨"", "A", "", "", "Hello A", ""⟩, ["Hello A"]⟩,
       ⟨⟨"", "B", "", "", "Hello B", ""⟩, ["Hello B"]⟩] := by
  exact ⟨fun f doc => nestedWalkPosts_eq f doc, by decide⟩

/-- C5: the metadata parser never sets `Summary` (there is no `summary`
key), so every extracted post derives it: with no content blocks the
summary stays empty, and otherwise it equals the first content block
with every newline replaced by a space; on the spec's example blocks
`["Line one.\nLine two.", "Second block"]` the summary is
`"Line one. Line two."`. -/
theorem c5_summary_derivation :
    (∀ lines, (MetadataParser.Parse lines).Summary = "") ∧
    (∀ ln fi : Node,
      ((extractListPost ln fi).Content = [] →
        (extractListPost ln fi).Meta.Summary = "") ∧
      (∀ b bs, (extractListPost ln fi).Content = b :: bs →
        (extractListPost ln fi).Meta.Summary = replaceNL b)) ∧
    (∀ ln : Node,
      ((extractFromList ln).Content = [] → (extractFromList ln).Meta.Summary = "") ∧
      (∀ b bs, (extractFromList ln).Content = b :: bs →
        (extractFromList ln).Meta.Summary = replaceNL b)) ∧
    replaceNL "Line one.\nLine two." = "Line one. Line two." ∧
    (extractListPost docC5list docC5meta).Content =
      ["Line one.\nLine two.", "Second block"] ∧
    (extractListPost docC5list docC5meta).Meta.Summary = "Line one. Line two." := by
  refine ⟨fun lines => Parse_Summary lines,
    fun ln fi => ⟨(extractListPost_spec ln fi).2.1, (extractListPost_spec ln fi).2.2⟩,
    fun ln => ⟨(extractFromList_spec ln).2.1, (extractFromList_spec ln).2.2⟩,
    by decide, by decide, by decide⟩

theorem c5_witness :
    (extractListPost docC5list docC5meta).Meta.Summary =
      replaceNL "Line one.\nLine two." :=
  (c5_summary_derivation.2.1 docC5list docC5meta).2 "Line one.\nLine two."
    ["Second block"] (by decide)

/-- C6: only the five case-sensitive keys `date`, `title`, `author`,
`header`, `status` are dispatched (any other key, including different
casing, changes nothing); the stored header value is the first
parenthesized group of the value, or the value verbatim when it
contains no opening parenthesis; lines matching no key pattern are
ignored wherever they occur, and parsing never fails. -/
theorem c6_metadata_dispatch :
    (∀ (meta : BlogMeta) (k v : String), k ≠ "date" → k ≠ "title" →
      k ≠ "author" → k ≠ "header" → k ≠ "status" → setField meta k v = meta) ∧
    (∀ raw : String, '(' ∉ raw.data → extractPath raw = raw) ∧
    (∀ a b c : List Char, '(' ∉ a → ')' ∉ b →
      extractPath ⟨a ++ '(' :: (b ++ ')' :: c)⟩ = ⟨b⟩) ∧
    (∀ (l₁ l₂ : List String) (line : String), findKV line = none →
      MetadataParser.Parse (l₁ ++ line :: l₂) = MetadataParser.Parse (l₁ ++ l₂)) ∧
    MetadataParser.Parse ["Date:: 2020"] = ⟨"", "", "", "", "", ""⟩ ∧
    MetadataParser.Parse ["header:: ![x](img/pic.jpg)"] =
      ⟨"", "", "", "img/pic.jpg", "", ""⟩ := by
  refine ⟨fun meta k v h1 h2 h3 h4 h5 => setField_unknown meta k v h1 h2 h3 h4 h5,
    fun raw h => extractPath_verbatim raw h,
    fun a b c ha hb => extractPath_group a b c ha hb,
    fun l₁ l₂ line h => Parse_ignores l₁ l₂ line h,
    by decide, by decide⟩

theorem c6_witness :
    setField {} "Type" "blog" = {} ∧
    extractPath ⟨"![x]".data ++ '(' :: ("img/pic.jpg".data ++ ')' :: [])⟩ =
      ⟨"img/pic.jpg".data⟩ :=
  ⟨c6_metadata_dispatch.1 {} "Type" "blog" (by decide) (by decide) (by decide)
      (by decide) (by decide),
   c6_metadata_dispatch.2.2.1 "![x]".data "img/pic.jpg".data [] (by decide) (by decide)⟩

/-- C7 counterexample: in `extractListPost` a sibling item whose
reconstructed text is empty (here an item with no children) yields no
content block, so the number of content blocks does not equal the
number of non-metadata sibling items. -/
theorem c7_counterexample :
    ¬ ((extractListPost docC7list docC7meta).Content.length =
        NodeList.length (restItems (resolveListW docC7list docC7meta))) := by
  decide

/-- C7 amended: each sibling item after the first yields at most one
content block, in document order.  In `extractFromList` (`types.go`)
every sibling yields exactly one block, so the count equals the number
of non-metadata siblings; in `extractListPost` (`writer.go`) a sibling
whose reconstructed text is empty is dropped, so the blocks are exactly
the non-empty reconstructions in document order. -/
theorem c7_amended :
    (∀ ln fi : Node, (extractListPost ln fi).Content =
      ((NodeList.toList (restItems (resolveListW ln fi))).map extractText).filter
        (fun b => b != "")) ∧
    (∀ ln : Node, (extractFromList ln).Content =
      (NodeList.toList (restItems (resolveListT ln))).map extractNodeText) ∧
    (∀ ln : Node, (extractFromList ln).Content.length =
      NodeList.length (Node.children (resolveListT ln)) - 1) := by
  refine ⟨fun ln fi => ?_, fun ln => ?_, fun ln => ?_⟩
  · rw [(extractListPost_spec ln fi).1, contentItemsW_eq]
  · rw [(extractFromList_spec ln).1, contentItemsT_eq]
  · rw [(extractFromList_spec ln).1, contentItemsT_eq, List.length_map,
        toList_length, restItems_length]

/-- C8: extraction is deterministic.  The embedding is a pure function
(so two runs on the same document and source agree definitionally), and
the only stateful structure, the processed set — a hash map in the Go
code, queried only through membership — can be replaced by any
membership-equivalent representation without changing the produced
posts. -/
theorem c8_deterministic :
    (∀ doc : Node, extractBlogPosts doc = extractBlogPosts doc) ∧
    (∀ (f : Node → BlogPost) (doc : Node) (s₁ s₂ : List (List Nat)),
      (∀ r, r ∈ s₁ ↔ r ∈ s₂) →
      (walkNode f [] doc (s₁, [])).2 = (walkNode f [] doc (s₂, [])).2) := by
  exact ⟨fun doc => rfl, fun f doc s₁ s₂ h => walkNode_congr f doc [] s₁ s₂ [] h⟩

theorem c8_witness :
    (walkNode extractFromList [] docC1 ([[5]], [])).2 =
      (walkNode extractFromList [] docC1 ([[5], [5]], [])).2 :=
  c8_deterministic.2 extractFromList docC1 [[5]] [[5], [5]]
    (by intro r; simp)

/-- C9: a List node with no first item never matches (`hasMarker` is
false, and every extracted list has the marker, hence a first child);
inserting a childless List among the top-level children of a non-List
root changes neither the nested-outline posts nor the top-level
strategy's result, so the walk continues and posts from the rest of the
document are still found, as the concrete document with a childless
list followed by a marked list shows. -/
theorem c9_empty_list_resilience :
    (∀ (k : NodeKind) (l : Nat) (t s : String), hasMarker (.mk k l t s .nil) = false) ∧
    (∀ (doc m : Node), m ∈ markedOutermost doc → hasMarker m = true) ∧
    (∀ (f : Node → BlogPost) (k : NodeKind) (l : Nat) (t s : String)
      (pre post : NodeList) (el : Nat) (et es : String), k ≠ .list →
      nestedWalkPosts f
          (.mk k l t s (NodeList.app pre (.cons (.mk .list el et es .nil) post))) =
        nestedWalkPosts f (.mk k l t s (NodeList.app pre post))) ∧
    (∀ (k : NodeKind) (l : Nat) (t s : String) (pre post : NodeList)
      (el : Nat) (et es : String), k ≠ .list →
      extractTopLevelPost
          (.mk k l t s (NodeList.app pre (.cons (.mk .list el et es .nil) post))) =
        extractTopLevelPost (.mk k l t s (NodeList.app pre post))) ∧
    NestedListExtractor.Extract docC9 =
      [⟨⟨"", "R", "", "", "Rest found", ""⟩, ["Rest found"]⟩] := by
  have hmo : ∀ (k : NodeKind) (l : Nat) (t s : String) (pre post : NodeList)
      (el : Nat) (et es : String), k ≠ .list →
      markedOutermost (.mk k l t s (NodeList.app pre (.cons (.mk .list el et es .nil) post))) =
        markedOutermost (.mk k l t s (NodeList.app pre post)) := by
    intro k l t s pre post el et es hk
    rw [markedOutermost, markedOutermost, if_neg (by rintro ⟨h1, -⟩; exact hk h1),
        if_neg (by rintro ⟨h1, -⟩; exact hk h1), moL_app, moL_app, markedOutermostL]
    rw [show markedOutermost (.mk NodeKind.list el et es .nil) = [] from by
      rw [markedOutermost, if_neg]
      · rw [markedOutermostL]
      · rintro ⟨-, h2⟩
        rw [show hasMarker (.mk NodeKind.list el et es .nil) = false from rfl] at h2
        cases h2]
    simp
  refine ⟨fun k l t s => rfl, fun doc m h => (mo_marked doc m h).2,
    fun f k l t s pre post el et es hk => ?_, fun k l t s pre post el et es hk => ?_,
    by decide⟩
  · rw [nestedWalkPosts_eq, nestedWalkPosts_eq, hmo k l t s pre post el et es hk]
  · have hvisit : tlVisit .other (.mk k l t s (NodeList.app pre (.cons (.mk .list el et es .nil) post))) ⟨[], [], false⟩ =
        tlVisit .other (.mk k l t s (NodeList.app pre post)) ⟨[], [], false⟩ := by
      rw [tlVisit, tlVisit]
      simp only [Node.kind, Node.text]
      by_cases hp : k = NodeKind.paragraph ∧ strContains t "::" = true
      · rw [if_pos hp, if_neg (fun h => hk h.2.1), if_neg (fun h => hk h.2.1)]
      · rw [if_neg hp, if_neg (fun h => hk h.2.1), if_neg (fun h => hk h.2.1)]
    rw [extractTopLevelPost, extractTopLevelPost, tlWalk, tlWalk, hvisit,
        tlWalkChildren_app, tlWalkChildren_cons, tlWalk_emptyList, tlWalkChildren_app]

theorem c9_witness :
    nestedWalkPosts extractFromList
        (.mk .other 0 "" ""
          (NodeList.app .nil
            (.cons (.mk .list 0 "" "" .nil)
              (.cons (markedFlatList "R" "Rest found") .nil)))) =
      nestedWalkPosts extractFromList
        (.mk .other 0 "" ""
          (NodeList.app .nil (.cons (markedFlatList "R" "Rest found") .nil))) :=
  c9_empty_list_resilience.2.2.1 extractFromList .other 0 "" "" .nil
    (.cons (markedFlatList "R" "Rest found") .nil) 0 "" "" (by decide)

/-- C10: the key match is not anchored at the start of the line — for a
line whose recognized key word immediately precedes the first `::` but
is itself preceded by colon-free text ending in a non-word character,
the field is still set and the preceding text is ignored; in
particular `release-date:: 2020` sets the date to `2020`. -/
theorem c10_unanchored_key :
    (∀ (a : List Char) (c : Char) (v : List Char),
      ':' ∉ a → c ≠ ':' → isWordChar c = false →
      (MetadataParser.Parse [⟨a ++ c :: ("date:: ".data ++ v)⟩]).Date =
        trimGo ⟨v.dropWhile isRESpace⟩) ∧
    MetadataParser.Parse ["release-date:: 2020"] = ⟨"2020", "", "", "", "", ""⟩ := by
  refine ⟨fun a c v ha hc hw => ?_, by decide⟩
  rw [MetadataParser.Parse, List.foldl_cons, List.foldl_nil,
      findKV_unanchored a c v ha hc hw]
  show (setField {} "date" (trimGo ⟨v.dropWhile isRESpace⟩)).Date =
    trimGo ⟨v.dropWhile isRESpace⟩
  rw [setField, if_pos rfl]

theorem c10_witness :
    (MetadataParser.Parse
        [⟨"release".data ++ '-' :: ("date:: ".data ++ "2020".data)⟩]).Date =
      trimGo ⟨"2020".data.dropWhile isRESpace⟩ :=
  c10_unanchored_key.1 "release".data '-' "2020".data (by decide) (by decide)
    (by decide)
